import Mathlib

/-!
Shallow embedding of mlpack's `MaxPooling` layer
(`src/mlpack/methods/ann/layer/max_pooling.hpp`).

Tensors (`arma::Cube`) are modelled as dimensions plus a total element
function; flat (linearized) addresses follow Armadillo's layout:
column-major inside a slice, slices consecutive, so element `(r, c, s)`
has flat address `r + nRows * c + nRows * nCols * s`.

Element values are modelled as `Int` (any linearly ordered numeric type
behaves identically for max pooling).
-/

namespace MaxPool

/-- Model of `arma::Cube`: dimensions plus a total element function.
`data r c s` is the element at row `r`, column `c`, slice `s`. -/
structure Cube where
  nRows : Nat
  nCols : Nat
  nSlices : Nat
  data : Nat → Nat → Nat → Int

/-- Total number of elements of the cube (`n_elem`). -/
def Cube.nElem (x : Cube) : Nat := x.nRows * x.nCols * x.nSlices

/-- Element at a flat (linearized) address, per Armadillo's layout:
column-major within a slice, slices consecutive. -/
def Cube.elemAt (x : Cube) (p : Nat) : Int :=
  x.data (p % x.nRows) ((p / x.nRows) % x.nCols) (p / (x.nRows * x.nCols))

/-- `arma::vectorise` of an `nRows × nCols` window given as an element
function: the elements listed in column-major order, so position `k`
holds the element at row `k % nRows`, column `k / nRows`. -/
def vectorise (nRows nCols : Nat) (w : Nat → Nat → Int) : List Int :=
  (List.range (nRows * nCols)).map (fun k => w (k % nRows) (k / nRows))

/-- Maximum of a list of values (`arma::max` on the vectorised window);
the empty case never arises for a nonempty window. -/
def listMax : List Int → Int
  | [] => 0
  | a :: l => List.foldl max a l

/-- `MaxPoolingRule::Pooling`: the maximum value within the receptive
block, computed as `arma::max(arma::vectorise(input))`. -/
def Pooling (nRows nCols : Nat) (w : Nat → Nat → Int) : Int :=
  listMax (vectorise nRows nCols w)

/-- `MaxPoolingRule::PoolingWithIndex`: the maximum value together with
the flat position of its first occurrence in the column-major scan,
computed as `arma::find(input == maxVal, 1)`. -/
def PoolingWithIndex (nRows nCols : Nat) (w : Nat → Nat → Int) : Nat × Int :=
  let maxVal := listMax (vectorise nRows nCols w)
  let index := List.findIdx (fun x => x == maxVal) (vectorise nRows nCols w)
  (index, maxVal)

/- Basic facts about `listMax` and `vectorise`. -/

lemma le_foldl_max (l : List Int) (a : Int) : a ≤ List.foldl max a l := by
  induction l generalizing a with
  | nil => exact le_refl a
  | cons b l ih =>
    exact le_trans (le_max_left a b) (ih (max a b))

lemma foldl_max_le_of_mem (l : List Int) (a x : Int) (hx : x ∈ l) :
    x ≤ List.foldl max a l := by
  induction l generalizing a with
  | nil => cases hx
  | cons b l ih =>
    rcases List.mem_cons.mp hx with h | h
    · subst h
      exact le_trans (le_max_right a x) (le_foldl_max l (max a x))
    · exact ih (max a b) h

lemma foldl_max_eq_or_mem (l : List Int) (a : Int) :
    List.foldl max a l = a ∨ List.foldl max a l ∈ l := by
  induction l generalizing a with
  | nil => exact Or.inl rfl
  | cons b l ih =>
    rcases ih (max a b) with h | h
    · rcases max_choice a b with hm | hm
      · exact Or.inl (by rw [List.foldl_cons, h, hm])
      · exact Or.inr (by rw [List.foldl_cons, h, hm]; exact List.mem_cons_self b l)
    · exact Or.inr (List.mem_cons_of_mem b h)

lemma listMax_mem (l : List Int) (h : l ≠ []) : listMax l ∈ l := by
  cases l with
  | nil => exact absurd rfl h
  | cons a l =>
    rcases foldl_max_eq_or_mem l a with h' | h'
    · rw [listMax, h']; exact List.mem_cons_self a l
    · exact List.mem_cons_of_mem a h'

lemma le_listMax (l : List Int) (x : Int) (hx : x ∈ l) : x ≤ listMax l := by
  cases l with
  | nil => cases hx
  | cons a l =>
    rcases List.mem_cons.mp hx with h | h
    · subst h; exact le_foldl_max l x
    · exact foldl_max_le_of_mem l a x h

lemma vectorise_length (nR nC : Nat) (w : Nat → Nat → Int) :
    (vectorise nR nC w).length = nR * nC := by
  simp [vectorise]

lemma vectorise_getElem (nR nC : Nat) (w : Nat → Nat → Int) (k : Nat)
    (h : k < nR * nC) :
    (vectorise nR nC w).get ⟨k, by rw [vectorise_length]; exact h⟩ =
      w (k % nR) (k / nR) := by
  simp [vectorise]

lemma mem_vectorise (nR nC : Nat) (w : Nat → Nat → Int) (r c : Nat)
    (hr : r < nR) (hc : c < nC) : w r c ∈ vectorise nR nC w := by
  have hk : r + nR * c < nR * nC := by
    calc r + nR * c < nR + nR * c := Nat.add_lt_add_right hr _
    _ = nR * (c + 1) := by ring
    _ ≤ nR * nC := Nat.mul_le_mul_left nR hc
  have hmod : (r + nR * c) % nR = r := by
    rw [Nat.add_mul_mod_self_left, Nat.mod_eq_of_lt hr]
  have hdiv : (r + nR * c) / nR = c := by
    rw [Nat.add_mul_div_left r c (Nat.lt_of_le_of_lt (Nat.zero_le r) hr),
      Nat.div_eq_of_lt hr, Nat.zero_add]
  have := vectorise_getElem nR nC w (r + nR * c) hk
  rw [hmod, hdiv] at this
  rw [← this]
  exact List.get_mem _ _ _

lemma vectorise_ne_nil (nR nC : Nat) (w : Nat → Nat → Int)
    (h : 0 < nR * nC) : vectorise nR nC w ≠ [] := by
  intro hnil
  have hlen := vectorise_length nR nC w
  rw [hnil, List.length_nil] at hlen
  omega

/-!
Forward pooling (`MaxPoolingType::PoolingOperation`, the overload that
also records pooling indices).  For output cell `(i, j, s)` the source
takes the submatrix of slice `s` spanning rows
`rowidx .. rowidx + kernelWidth - 1 - offset` and columns
`colidx .. colidx + kernelHeight - 1 - offset`, where
`rowidx = i * strideWidth` and `colidx = j * strideHeight`; that window
therefore has `kernelWidth - offset` rows and `kernelHeight - offset`
columns.  Each output/index cell depends only on the input, so the loop
nest is embedded as one function per cell.
-/

/-- The window of `input` pooled for output cell `(i, j, s)`, as an
element function: entry `(r, c)` is the input element at
`(i * strideWidth + r, j * strideHeight + c)` in slice `s`. -/
def windowOf (input : Cube) (sW sH i j s : Nat) : Nat → Nat → Int :=
  fun r c => input.data (i * sW + r) (j * sH + c) s

/-- `output(i, j, s)` as computed by `PoolingOperation`: the value
component of `PoolingWithIndex` on the cell's window. -/
def outputCell (input : Cube) (kW kH sW sH offset i j s : Nat) : Int :=
  (PoolingWithIndex (kW - offset) (kH - offset) (windowOf input sW sH i j s)).2

/-- `poolingIndices(i, j, s)` as computed by `PoolingOperation`: the
window-local flat index returned by `PoolingWithIndex`, unmapped to an
absolute flat index in the input via
`(rowidx + poolingRow) + n_rows * (colidx + poolingCol) + n_rows * n_cols * s`
with `poolingCol = poolIndex / (kernelWidth - offset)` and
`poolingRow = poolIndex % (kernelWidth - offset)`. -/
def indexMapCell (input : Cube) (kW kH sW sH offset i j s : Nat) : Nat :=
  let poolIndex :=
    (PoolingWithIndex (kW - offset) (kH - offset) (windowOf input sW sH i j s)).1
  let poolingCol := poolIndex / (kW - offset)
  let poolingRow := poolIndex % (kW - offset)
  (i * sW + poolingRow) + input.nRows * (j * sH + poolingCol) +
    input.nRows * input.nCols * s

/-- `MaxPoolingType::UnpoolingOperation`: `output.zeros()`, then for
every flat position `i` of the error cube,
`output(poolingIndices(i)) += error(i)`.  The gradient cube is embedded
as a function from flat addresses; the loop is a left fold over
`i = 0, …, nElem - 1`. -/
def UnpoolingOperation (error : Nat → Int) (poolingIndices : Nat → Nat)
    (nElem : Nat) : Nat → Int :=
  List.foldl
    (fun g i => fun p => if p = poolingIndices i then g p + error i else g p)
    (fun _ => 0) (List.range nElem)

/-- Sum of the first `n` entries of a flat tensor (the total gradient
mass of a cube with `n` elements). -/
def sumFlat (g : Nat → Int) (n : Nat) : Int :=
  (List.map g (List.range n)).sum

/-- The flattened index map produced by the forward pass on `input` for
an output of `oR × oC` cells per slice: flat output position `p`
corresponds to output cell `(p % oR, (p / oR) % oC, p / (oR * oC))`. -/
def forwardIndexFlat (input : Cube) (kW kH sW sH offset oR oC : Nat) :
    Nat → Nat :=
  fun p =>
    indexMapCell input kW kH sW sH offset (p % oR) ((p / oR) % oC) (p / (oR * oC))

/-- The configuration error of the dimension calculator. -/
inductive PoolError where
  | configurationError : PoolError
deriving DecidableEq

/-- Modelled from the spec: the body of
`MaxPoolingType::ComputeOutputDimensions` lives in
`max_pooling_impl.hpp`, which is not part of the sources; only its
declaration is.  Per the spec (§4.2): floor mode gives
`outputSize = floor((inputSize - kernel) / stride) + 1`, ceil mode gives
`outputSize = ceil((inputSize - kernel) / stride) + 1`, and a
ConfigurationError is raised when `kernel > inputSize` under floor mode
or when kernel/stride are 0. -/
def ComputeOutputSize (inputSize kernel stride : Nat) (floorMode : Bool) :
    Except PoolError Nat :=
  if kernel = 0 ∨ stride = 0 then Except.error PoolError.configurationError
  else if floorMode ∧ inputSize < kernel then
    Except.error PoolError.configurationError
  else if floorMode then Except.ok ((inputSize - kernel) / stride + 1)
  else Except.ok ((inputSize - kernel + stride - 1) / stride + 1)

/-- Modelled from the spec: `ComputeOutputDimensions` (body in
`max_pooling_impl.hpp`, not in the sources) applies the per-axis size
formula independently to width (dimension 0) and height (dimension 1)
and leaves every higher dimension — the channel dimensions — unchanged
(§4.2: channel count of the output equals channel count of the input). -/
def ComputeOutputDimensions (inputDims : List Nat) (kW kH sW sH : Nat)
    (floorMode : Bool) : Except PoolError (List Nat) := do
  let ow ← ComputeOutputSize (inputDims.getD 0 0) kW sW floorMode
  let oh ← ComputeOutputSize (inputDims.getD 1 0) kH sH floorMode
  pure (ow :: oh :: inputDims.drop 2)

/-- Modelled from the spec: the `offset` member is assigned in
`ComputeOutputDimensions` (body in `max_pooling_impl.hpp`, not in the
sources).  Per the spec, floor mode pools full `kernel`-sized windows
(offset 0), while ceil mode "reduces the effective window by a fixed
offset" (§9) so that the extra boundary window stays inside the input
(offset 1). -/
def offsetFor (floorMode : Bool) : Nat := if floorMode then 0 else 1

/-- Modelled from the spec: the body of `MaxPoolingType::Backward` lives
in `max_pooling_impl.hpp`, which is not part of the sources.  The header
declares `Backward(const InputType& /* input */, gy, g)` with the input
parameter name commented out, and the spec (§4.4) defines the backward
pass as the unpooling of the upstream gradient through the stored index
map alone; the input activation is not consulted. -/
def Backward (input : Cube) (gy : Nat → Int) (poolingIndices : Nat → Nat)
    (nOutElem : Nat) : Nat → Int :=
  UnpoolingOperation gy poolingIndices nOutElem

/-- Concrete 4×4 single-slice input used by spec §8's worked scenario:
column `c`, row `r` holds `1 + 4*r + c` (values 1..16 row by row). -/
def cube4 : Cube :=
  { nRows := 4, nCols := 4, nSlices := 1,
    data := fun r c _ => 1 + 4 * (r : Int) + (c : Int) }

/-- Concrete 5×5 single-slice input with a single spike at row 2,
column 0; used to exhibit ceil-mode window shrinking. -/
def cube5 : Cube :=
  { nRows := 5, nCols := 5, nSlices := 1,
    data := fun r c s => if r = 2 ∧ c = 0 ∧ s = 0 then 100 else 0 }

/-- A copy of `cube4` whose data differs on every slice other than
slice 0; used to show slice independence and that the backward pass
ignores the input activation. -/
def cube4b : Cube :=
  { nRows := 4, nCols := 4, nSlices := 1,
    data := fun r c s => if s = 0 then cube4.data r c 0 else 77 }

/-- A 2×2 window holding a tied maximum (value 5 at column-major flat
positions 1 and 2); used to exercise the tie-break rule. -/
def tieWindow : Nat → Nat → Int :=
  fun r c =>
    if r = 1 ∧ c = 0 then 5 else if r = 0 ∧ c = 1 then 5 else 0

/- Characterization of the pooling rule. -/

lemma pwi_def (nR nC : Nat) (w : Nat → Nat → Int) :
    PoolingWithIndex nR nC w =
      (List.findIdx (fun x => x == Pooling nR nC w) (vectorise nR nC w),
        Pooling nR nC w) := rfl

lemma pos_left_of_mul_pos (a b : Nat) (h : 0 < a * b) : 0 < a := by
  rcases Nat.eq_zero_or_pos a with h0 | h0
  · rw [h0, Nat.zero_mul] at h; exact absurd h (lt_irrefl 0)
  · exact h0

lemma pos_right_of_mul_pos (a b : Nat) (h : 0 < a * b) : 0 < b :=
  pos_left_of_mul_pos b a (by rwa [Nat.mul_comm])

lemma pooling_is_ub (nR nC : Nat) (w : Nat → Nat → Int) (r c : Nat)
    (hr : r < nR) (hc : c < nC) : w r c ≤ Pooling nR nC w :=
  le_listMax _ _ (mem_vectorise nR nC w r c hr hc)

lemma pooling_attained (nR nC : Nat) (w : Nat → Nat → Int) (h : 0 < nR * nC) :
    ∃ r c, r < nR ∧ c < nC ∧ Pooling nR nC w = w r c := by
  have hne := vectorise_ne_nil nR nC w h
  have hmem := listMax_mem _ hne
  obtain ⟨⟨k, hk⟩, hgk⟩ := List.mem_iff_get.mp hmem
  have hk' : k < nR * nC := by rwa [vectorise_length] at hk
  have hnR : 0 < nR := pos_left_of_mul_pos nR nC h
  refine ⟨k % nR, k / nR, Nat.mod_lt k hnR, ?_, ?_⟩
  · exact (Nat.div_lt_iff_lt_mul hnR).mpr (by rwa [Nat.mul_comm nR nC] at hk')
  · have := vectorise_getElem nR nC w k hk'
    rw [← this]
    exact hgk.symm

lemma pwi_fst_lt (nR nC : Nat) (w : Nat → Nat → Int) (h : 0 < nR * nC) :
    (PoolingWithIndex nR nC w).1 < nR * nC := by
  have hne := vectorise_ne_nil nR nC w h
  have hmem := listMax_mem _ hne
  have hex : ∃ x ∈ vectorise nR nC w,
      (fun x => x == Pooling nR nC w) x = true :=
    ⟨listMax (vectorise nR nC w), hmem, beq_iff_eq.mpr rfl⟩
  have hlt := List.findIdx_lt_length_of_exists hex
  rw [vectorise_length] at hlt
  rw [pwi_def]
  exact hlt

lemma pwi_fst_is_max (nR nC : Nat) (w : Nat → Nat → Int) (h : 0 < nR * nC) :
    w ((PoolingWithIndex nR nC w).1 % nR) ((PoolingWithIndex nR nC w).1 / nR) =
      Pooling nR nC w := by
  have hlt := pwi_fst_lt nR nC w h
  rw [pwi_def] at hlt ⊢
  simp only at hlt ⊢
  have hlen : List.findIdx (fun x => x == Pooling nR nC w) (vectorise nR nC w) <
      (vectorise nR nC w).length := by
    rw [vectorise_length]; exact hlt
  have hp := @List.findIdx_getElem Int (fun x => x == Pooling nR nC w)
    (vectorise nR nC w) hlen
  have hval := beq_iff_eq.mp hp
  have hg := vectorise_getElem nR nC w
    (List.findIdx (fun x => x == Pooling nR nC w) (vectorise nR nC w)) hlt
  rw [List.get_eq_getElem] at hg
  rw [← hg]
  exact hval

lemma pwi_fst_first (nR nC : Nat) (w : Nat → Nat → Int) (t : Nat)
    (ht : t < (PoolingWithIndex nR nC w).1) :
    w (t % nR) (t / nR) ≠ Pooling nR nC w := by
  rw [pwi_def] at ht
  simp only at ht
  have htlen : t < (vectorise nR nC w).length :=
    Nat.lt_of_lt_of_le ht (List.findIdx_le_length _)
  have hfalse := List.not_of_lt_findIdx ht
  have ht' : t < nR * nC := by rwa [vectorise_length] at htlen
  have hg := vectorise_getElem nR nC w t ht'
  rw [List.get_eq_getElem] at hg
  intro hcontra
  rw [hg, hcontra] at hfalse
  simp at hfalse

/- Facts about the stored pooling indices. -/

lemma indexMapCell_decomp (input : Cube) (kW kH sW sH offset i j s : Nat)
    (hkW : 0 < kW - offset) (hkH : 0 < kH - offset) :
    ∃ r c, r < kW - offset ∧ c < kH - offset ∧
      indexMapCell input kW kH sW sH offset i j s =
        (i * sW + r) + input.nRows * (j * sH + c) +
          input.nRows * input.nCols * s ∧
      input.data (i * sW + r) (j * sH + c) s =
        outputCell input kW kH sW sH offset i j s := by
  have hprod : 0 < (kW - offset) * (kH - offset) := Nat.mul_pos hkW hkH
  refine ⟨(PoolingWithIndex (kW - offset) (kH - offset)
        (windowOf input sW sH i j s)).1 % (kW - offset),
      (PoolingWithIndex (kW - offset) (kH - offset)
        (windowOf input sW sH i j s)).1 / (kW - offset),
      Nat.mod_lt _ hkW, ?_, ?_, ?_⟩
  · have hlt := pwi_fst_lt (kW - offset) (kH - offset)
      (windowOf input sW sH i j s) hprod
    exact (Nat.div_lt_iff_lt_mul hkW).mpr
      (by rwa [Nat.mul_comm (kW - offset) (kH - offset)] at hlt)
  · rfl
  · have hmax := pwi_fst_is_max (kW - offset) (kH - offset)
      (windowOf input sW sH i j s) hprod
    have hout : outputCell input kW kH sW sH offset i j s =
        Pooling (kW - offset) (kH - offset) (windowOf input sW sH i j s) := rfl
    rw [hout, ← hmax]
    rfl

lemma elemAt_of_coords (x : Cube) (r c s : Nat)
    (hr : r < x.nRows) (hc : c < x.nCols) :
    x.elemAt (r + x.nRows * c + x.nRows * x.nCols * s) = x.data r c s := by
  have hR : 0 < x.nRows := Nat.lt_of_le_of_lt (Nat.zero_le r) hr
  have hC : 0 < x.nCols := Nat.lt_of_le_of_lt (Nat.zero_le c) hc
  have hflat : r + x.nRows * c + x.nRows * x.nCols * s =
      r + x.nRows * (c + x.nCols * s) := by ring
  have h1 : (r + x.nRows * (c + x.nCols * s)) % x.nRows = r := by
    rw [Nat.add_mul_mod_self_left, Nat.mod_eq_of_lt hr]
  have h2 : (r + x.nRows * (c + x.nCols * s)) / x.nRows = c + x.nCols * s := by
    rw [Nat.add_mul_div_left _ _ hR, Nat.div_eq_of_lt hr, Nat.zero_add]
  have h3 : (c + x.nCols * s) % x.nCols = c := by
    rw [Nat.add_mul_mod_self_left, Nat.mod_eq_of_lt hc]
  have hsmall : r + x.nRows * c < x.nRows * x.nCols := by
    calc r + x.nRows * c < x.nRows + x.nRows * c := Nat.add_lt_add_right hr _
    _ = x.nRows * (c + 1) := by ring
    _ ≤ x.nRows * x.nCols := Nat.mul_le_mul_left _ hc
  have h4 : (r + x.nRows * (c + x.nCols * s)) / (x.nRows * x.nCols) = s := by
    rw [← hflat, Nat.add_mul_div_left _ _ (Nat.mul_pos hR hC),
      Nat.div_eq_of_lt hsmall, Nat.zero_add]
  rw [Cube.elemAt, hflat, h1, h2, h3, h4]

lemma indexMapCell_lt (input : Cube) (kW kH sW sH offset i j s : Nat)
    (hkW : 0 < kW - offset) (hkH : 0 < kH - offset)
    (hrow : i * sW + (kW - offset) ≤ input.nRows)
    (hcol : j * sH + (kH - offset) ≤ input.nCols)
    (hs : s < input.nSlices) :
    indexMapCell input kW kH sW sH offset i j s < input.nElem := by
  obtain ⟨r, c, hr, hc, heq, -⟩ :=
    indexMapCell_decomp input kW kH sW sH offset i j s hkW hkH
  have hrow' : i * sW + r < input.nRows := by omega
  have hcol' : j * sH + c < input.nCols := by omega
  rw [heq, Cube.nElem]
  have h1 : (i * sW + r) + input.nRows * (j * sH + c) <
      input.nRows * input.nCols := by
    calc (i * sW + r) + input.nRows * (j * sH + c)
        < input.nRows + input.nRows * (j * sH + c) :=
          Nat.add_lt_add_right hrow' _
    _ = input.nRows * ((j * sH + c) + 1) := by ring
    _ ≤ input.nRows * input.nCols := Nat.mul_le_mul_left _ hcol'
  calc (i * sW + r) + input.nRows * (j * sH + c) +
        input.nRows * input.nCols * s
      < input.nRows * input.nCols + input.nRows * input.nCols * s :=
        Nat.add_lt_add_right h1 _
    _ = input.nRows * input.nCols * (s + 1) := by ring
    _ ≤ input.nRows * input.nCols * input.nSlices := Nat.mul_le_mul_left _ hs

/- Facts about the scatter-add. -/

lemma sumFlat_eq_sum (g : Nat → Int) (n : Nat) :
    sumFlat g n = ∑ p ∈ Finset.range n, g p := by
  induction n with
  | zero => simp [sumFlat]
  | succ n ih =>
    rw [sumFlat, List.range_succ, List.map_append, List.sum_append,
      Finset.sum_range_succ, ← sumFlat, ih]
    simp

lemma unpooling_step (error : Nat → Int) (idx : Nat → Nat) (n : Nat) :
    UnpoolingOperation error idx (n + 1) = fun p =>
      if p = idx n then UnpoolingOperation error idx n p + error n
      else UnpoolingOperation error idx n p := by
  rw [UnpoolingOperation, UnpoolingOperation, List.range_succ, List.foldl_append]
  rfl

lemma unpooling_char (error : Nat → Int) (idx : Nat → Nat) (n p : Nat) :
    UnpoolingOperation error idx n p =
      ∑ i ∈ Finset.range n, if idx i = p then error i else 0 := by
  induction n with
  | zero => simp [UnpoolingOperation]
  | succ n ih =>
    rw [unpooling_step, Finset.sum_range_succ, ← ih]
    by_cases hp : p = idx n
    · simp [hp]
    · have hnp : idx n ≠ p := fun h => hp h.symm
      simp [hp, hnp]

lemma unpooling_sum (error : Nat → Int) (idx : Nat → Nat) (n N : Nat)
    (h : ∀ i, i < n → idx i < N) :
    sumFlat (UnpoolingOperation error idx n) N = sumFlat error n := by
  rw [sumFlat_eq_sum, sumFlat_eq_sum]
  have hchar : ∀ p ∈ Finset.range N, UnpoolingOperation error idx n p =
      ∑ i ∈ Finset.range n, if idx i = p then error i else 0 :=
    fun p _ => unpooling_char error idx n p
  rw [Finset.sum_congr rfl hchar, Finset.sum_comm]
  apply Finset.sum_congr rfl
  intro i hi
  rw [Finset.sum_ite_eq (Finset.range N) (idx i) (fun _ => error i),
    if_pos (Finset.mem_range.mpr (h i (Finset.mem_range.mp hi)))]

/-!
Claim theorems.
-/

/-- Claim C1: for every output cell computed by the forward pooling
operation with index tracking enabled, reading the input tensor at the
absolute flat index stored in the index map for that cell yields exactly
the value written to that output cell:
`input[indexMap[i, j, slice]] == output[i, j, slice]`. -/
theorem forward_index_reads_output (input : Cube)
    (kW kH sW sH offset i j s : Nat)
    (hkW : 0 < kW - offset) (hkH : 0 < kH - offset)
    (hrow : i * sW + (kW - offset) ≤ input.nRows)
    (hcol : j * sH + (kH - offset) ≤ input.nCols) :
    input.elemAt (indexMapCell input kW kH sW sH offset i j s) =
      outputCell input kW kH sW sH offset i j s := by
  obtain ⟨r, c, hr, hc, heq, hval⟩ :=
    indexMapCell_decomp input kW kH sW sH offset i j s hkW hkH
  rw [heq,
    elemAt_of_coords input (i * sW + r) (j * sH + c) s (by omega) (by omega),
    hval]

/-- Witness for C1: the 4×4 input of spec §8 with a 2×2 kernel and
stride 2, output cell (0, 0, 0). -/
theorem forward_index_reads_output_witness :
    0 < 2 - 0 ∧ 0 < 2 - 0 ∧ 0 * 2 + (2 - 0) ≤ cube4.nRows ∧
      0 * 2 + (2 - 0) ≤ cube4.nCols ∧
      cube4.elemAt (indexMapCell cube4 2 2 2 2 0 0 0 0) =
        outputCell cube4 2 2 2 2 0 0 0 0 :=
  ⟨by decide, by decide, by decide, by decide,
    forward_index_reads_output cube4 2 2 2 2 0 0 0 0 (by decide) (by decide)
      (by decide) (by decide)⟩

/-- Claim C2: for every non-empty rectangular window, `Pooling` returns
the maximum element; `PoolingWithIndex` returns that same maximum
together with the flat position of its first occurrence in the
column-major scan (position `t` holds the element at row `t % nRows`,
column `t / nRows`): the returned index is in range, holds the maximum,
and every earlier scan position holds a strictly different value. -/
theorem pooling_rule_spec (nR nC : Nat) (w : Nat → Nat → Int)
    (h : 0 < nR * nC) :
    (∀ r c, r < nR → c < nC → w r c ≤ Pooling nR nC w) ∧
    (∃ r c, r < nR ∧ c < nC ∧ Pooling nR nC w = w r c) ∧
    (PoolingWithIndex nR nC w).2 = Pooling nR nC w ∧
    (PoolingWithIndex nR nC w).1 < nR * nC ∧
    w ((PoolingWithIndex nR nC w).1 % nR) ((PoolingWithIndex nR nC w).1 / nR) =
      Pooling nR nC w ∧
    (∀ t, t < (PoolingWithIndex nR nC w).1 →
      w (t % nR) (t / nR) ≠ Pooling nR nC w) :=
  ⟨fun r c hr hc => pooling_is_ub nR nC w r c hr hc,
    pooling_attained nR nC w h, rfl, pwi_fst_lt nR nC w h,
    pwi_fst_is_max nR nC w h, fun t ht => pwi_fst_first nR nC w t ht⟩

/-- Witness for C2: a 2×2 window with a tied maximum. -/
theorem pooling_rule_spec_witness :
    0 < 2 * 2 ∧
    ((∀ r c, r < 2 → c < 2 → tieWindow r c ≤ Pooling 2 2 tieWindow) ∧
    (∃ r c, r < 2 ∧ c < 2 ∧ Pooling 2 2 tieWindow = tieWindow r c) ∧
    (PoolingWithIndex 2 2 tieWindow).2 = Pooling 2 2 tieWindow ∧
    (PoolingWithIndex 2 2 tieWindow).1 < 2 * 2 ∧
    tieWindow ((PoolingWithIndex 2 2 tieWindow).1 % 2)
      ((PoolingWithIndex 2 2 tieWindow).1 / 2) = Pooling 2 2 tieWindow ∧
    (∀ t, t < (PoolingWithIndex 2 2 tieWindow).1 →
      tieWindow (t % 2) (t / 2) ≠ Pooling 2 2 tieWindow)) :=
  ⟨by decide, pooling_rule_spec 2 2 tieWindow (by decide)⟩

/-- Claim C3: for every upstream gradient and every index map produced
by a forward pass of matching shape, the total mass of the unpooled
gradient over the input-shaped tensor equals the total mass of the
upstream gradient, for any stride (overlapping or not). -/
theorem backward_conserves_sum (input : Cube)
    (kW kH sW sH offset oR oC : Nat) (gy : Nat → Int)
    (hkW : 0 < kW - offset) (hkH : 0 < kH - offset)
    (hoR : 0 < oR) (hoC : 0 < oC)
    (hrow : (oR - 1) * sW + (kW - offset) ≤ input.nRows)
    (hcol : (oC - 1) * sH + (kH - offset) ≤ input.nCols) :
    sumFlat (UnpoolingOperation gy
        (forwardIndexFlat input kW kH sW sH offset oR oC)
        (oR * oC * input.nSlices)) input.nElem =
      sumFlat gy (oR * oC * input.nSlices) := by
  apply unpooling_sum
  intro q hq
  rw [forwardIndexFlat]
  have hi : q % oR < oR := Nat.mod_lt _ hoR
  have hj : (q / oR) % oC < oC := Nat.mod_lt _ hoC
  have hs : q / (oR * oC) < input.nSlices := by
    have hq' : q < oR * oC * input.nSlices := hq
    exact (Nat.div_lt_iff_lt_mul (Nat.mul_pos hoR hoC)).mpr
      (by rwa [Nat.mul_comm (oR * oC) input.nSlices] at hq')
  apply indexMapCell_lt input kW kH sW sH offset _ _ _ hkW hkH _ _ hs
  · calc q % oR * sW + (kW - offset) ≤ (oR - 1) * sW + (kW - offset) :=
        Nat.add_le_add_right (Nat.mul_le_mul_right sW (by omega)) _
    _ ≤ input.nRows := hrow
  · calc (q / oR) % oC * sH + (kH - offset) ≤ (oC - 1) * sH + (kH - offset) :=
        Nat.add_le_add_right (Nat.mul_le_mul_right sH (by omega)) _
    _ ≤ input.nCols := hcol

/-- Witness for C3: the 4×4 input with a 2×2 kernel, stride 2, and an
all-ones upstream gradient. -/
theorem backward_conserves_sum_witness :
    0 < 2 - 0 ∧ 0 < 2 - 0 ∧ 0 < 2 ∧ 0 < 2 ∧
      (2 - 1) * 2 + (2 - 0) ≤ cube4.nRows ∧
      (2 - 1) * 2 + (2 - 0) ≤ cube4.nCols ∧
      sumFlat (UnpoolingOperation (fun _ => 1)
          (forwardIndexFlat cube4 2 2 2 2 0 2 2) (2 * 2 * cube4.nSlices))
        cube4.nElem =
        sumFlat (fun _ => 1) (2 * 2 * cube4.nSlices) :=
  ⟨by decide, by decide, by decide, by decide, by decide, by decide,
    backward_conserves_sum cube4 2 2 2 2 0 2 2 (fun _ => 1) (by decide)
      (by decide) (by decide) (by decide) (by decide) (by decide)⟩

/-- Claim C4: the backward unpooling operation zeroes the gradient and
then scatter-adds: the result at flat location `p` is the sum of the
upstream gradient over all positions whose index-map entry is `p`
(so multiply-referenced locations accumulate), and any location
referenced by no index-map entry holds exactly zero. -/
theorem unpooling_scatter_add (gy : Nat → Int) (idx : Nat → Nat)
    (n p : Nat) :
    UnpoolingOperation gy idx n p =
      sumFlat (fun i => if idx i = p then gy i else 0) n ∧
    ((∀ i, i < n → idx i ≠ p) → UnpoolingOperation gy idx n p = 0) := by
  constructor
  · rw [unpooling_char, sumFlat_eq_sum]
  · intro h
    rw [unpooling_char]
    apply Finset.sum_eq_zero
    intro i hi
    rw [if_neg (h i (Finset.mem_range.mp hi))]

/-- Witness for C4: three gradient cells all mapped to location 0
accumulate there, and the untouched location 5 stays zero. -/
theorem unpooling_scatter_add_witness :
    (UnpoolingOperation (fun i => (i : Int) + 1) (fun _ => 0) 3 0 =
      sumFlat (fun i => if (fun _ => 0) i = 0 then (fun i => (i : Int) + 1) i
        else 0) 3 ∧
    ((∀ i, i < 3 → (fun _ => (0 : Nat)) i ≠ 0) →
      UnpoolingOperation (fun i => (i : Int) + 1) (fun _ => 0) 3 0 = 0)) ∧
    UnpoolingOperation (fun i => (i : Int) + 1) (fun _ => 0) 3 5 = 0 :=
  ⟨unpooling_scatter_add (fun i => (i : Int) + 1) (fun _ => 0) 3 0,
    (unpooling_scatter_add (fun i => (i : Int) + 1) (fun _ => 0) 3 5).2
      (fun i _ => by decide)⟩

/-- Claim C5: in floor rounding mode, with `kernel ≤ inputSize` and
positive kernel and stride, the computed output size per axis is
`floor((inputSize - kernel) / stride) + 1`, the formula is applied
independently to width and height, and the channel dimensions of the
output equal those of the input. -/
theorem floor_output_dimensions (inputDims : List Nat) (kW kH sW sH : Nat)
    (hkW : 0 < kW) (hkH : 0 < kH) (hsW : 0 < sW) (hsH : 0 < sH)
    (hW : kW ≤ inputDims.getD 0 0) (hH : kH ≤ inputDims.getD 1 0) :
    ComputeOutputSize (inputDims.getD 0 0) kW sW true =
      Except.ok ((inputDims.getD 0 0 - kW) / sW + 1) ∧
    ComputeOutputSize (inputDims.getD 1 0) kH sH true =
      Except.ok ((inputDims.getD 1 0 - kH) / sH + 1) ∧
    ComputeOutputDimensions inputDims kW kH sW sH true =
      Except.ok (((inputDims.getD 0 0 - kW) / sW + 1) ::
        ((inputDims.getD 1 0 - kH) / sH + 1) :: inputDims.drop 2) := by
  have h0 : ComputeOutputSize (inputDims.getD 0 0) kW sW true =
      Except.ok ((inputDims.getD 0 0 - kW) / sW + 1) := by
    rw [ComputeOutputSize, if_neg (by omega), if_neg (by omega), if_pos rfl]
  have h1 : ComputeOutputSize (inputDims.getD 1 0) kH sH true =
      Except.ok ((inputDims.getD 1 0 - kH) / sH + 1) := by
    rw [ComputeOutputSize, if_neg (by omega), if_neg (by omega), if_pos rfl]
  refine ⟨h0, h1, ?_⟩
  rw [ComputeOutputDimensions, h0, h1]
  rfl

/-- Witness for C5: a 4×4×2 input with a 2×2 kernel and stride 2 yields
output dimensions 2×2×2. -/
theorem floor_output_dimensions_witness :
    0 < 2 ∧ 0 < 2 ∧ 0 < 2 ∧ 0 < 2 ∧
      2 ≤ ([4, 4, 2] : List Nat).getD 0 0 ∧
      2 ≤ ([4, 4, 2] : List Nat).getD 1 0 ∧
      (ComputeOutputSize (([4, 4, 2] : List Nat).getD 0 0) 2 2 true =
        Except.ok ((([4, 4, 2] : List Nat).getD 0 0 - 2) / 2 + 1) ∧
      ComputeOutputSize (([4, 4, 2] : List Nat).getD 1 0) 2 2 true =
        Except.ok ((([4, 4, 2] : List Nat).getD 1 0 - 2) / 2 + 1) ∧
      ComputeOutputDimensions [4, 4, 2] 2 2 2 2 true =
        Except.ok (((([4, 4, 2] : List Nat).getD 0 0 - 2) / 2 + 1) ::
          ((([4, 4, 2] : List Nat).getD 1 0 - 2) / 2 + 1) ::
          ([4, 4, 2] : List Nat).drop 2)) :=
  ⟨by decide, by decide, by decide, by decide, by decide, by decide,
    floor_output_dimensions [4, 4, 2] 2 2 2 2 (by decide) (by decide)
      (by decide) (by decide) (by decide) (by decide)⟩

/-- Counterexample to claim C6 as stated: in ceil mode with a 5×5
input, 3×3 kernel, stride 2, the window of output cell (0, 0) does not
extend past the input boundary (rows and columns 0..2 all exist), yet
the value pooled for that cell differs from the maximum of the full
3×3 window: the code shrinks every window — interior ones included —
by the fixed ceil-mode offset. -/
theorem ceil_interior_window_not_full :
    0 * 2 + 3 ≤ cube5.nRows ∧ 0 * 2 + 3 ≤ cube5.nCols ∧
    outputCell cube5 3 3 2 2 (offsetFor false) 0 0 0 ≠
      Pooling 3 3 (windowOf cube5 2 2 0 0 0) := by
  refine ⟨by decide, by decide, by decide⟩

/-- Claim C6 as amended: in ceil rounding mode every window — interior
and boundary alike — is reduced by the fixed offset 1 per dimension:
each output cell pools exactly the `(kernelWidth - 1) × (kernelHeight - 1)`
sub-window anchored at `(i * strideWidth, j * strideHeight)`; no
per-cell boundary clipping occurs. -/
theorem ceil_window_fixed_offset (input : Cube) (kW kH sW sH i j s : Nat)
    (hkW : 1 < kW) (hkH : 1 < kH) :
    (∀ r c, r < kW - 1 → c < kH - 1 →
      input.data (i * sW + r) (j * sH + c) s ≤
        outputCell input kW kH sW sH (offsetFor false) i j s) ∧
    (∃ r c, r < kW - 1 ∧ c < kH - 1 ∧
      outputCell input kW kH sW sH (offsetFor false) i j s =
        input.data (i * sW + r) (j * sH + c) s) := by
  constructor
  · intro r c hr hc
    exact pooling_is_ub (kW - 1) (kH - 1) (windowOf input sW sH i j s) r c hr hc
  · exact pooling_attained (kW - 1) (kH - 1) (windowOf input sW sH i j s)
      (Nat.mul_pos (by omega) (by omega))

/-- Witness for amended C6: `cube5` in ceil mode with a 3×3 kernel at
cell (0, 0, 0) pools the 2×2 sub-window. -/
theorem ceil_window_fixed_offset_witness :
    1 < 3 ∧ 1 < 3 ∧
    ((∀ r c, r < 3 - 1 → c < 3 - 1 →
      cube5.data (0 * 2 + r) (0 * 2 + c) 0 ≤
        outputCell cube5 3 3 2 2 (offsetFor false) 0 0 0) ∧
    (∃ r c, r < 3 - 1 ∧ c < 3 - 1 ∧
      outputCell cube5 3 3 2 2 (offsetFor false) 0 0 0 =
        cube5.data (0 * 2 + r) (0 * 2 + c) 0)) :=
  ⟨by decide, by decide,
    ceil_window_fixed_offset cube5 3 3 2 2 0 0 0 (by decide) (by decide)⟩

/-- Claim C7: during the forward pass the window pooled for output cell
(i, j) of a slice is anchored at input coordinate
`(i * strideWidth, j * strideHeight)`; in floor mode (offset 0, no
clipping) it spans the full `kernelWidth × kernelHeight` extent — the
cell's value is exactly the maximum over that window — and each slice
is processed independently: an input agreeing on slice `s` yields the
same cell values on slice `s` whatever its other slices hold. -/
theorem floor_window_anchor_and_slice_independence
    (input input2 : Cube) (kW kH sW sH i j s : Nat)
    (hkW : 0 < kW) (hkH : 0 < kH)
    (hagree : ∀ r c, input2.data r c s = input.data r c s) :
    (∀ r c, r < kW → c < kH →
      input.data (i * sW + r) (j * sH + c) s ≤
        outputCell input kW kH sW sH (offsetFor true) i j s) ∧
    (∃ r c, r < kW ∧ c < kH ∧
      outputCell input kW kH sW sH (offsetFor true) i j s =
        input.data (i * sW + r) (j * sH + c) s) ∧
    outputCell input2 kW kH sW sH (offsetFor true) i j s =
      outputCell input kW kH sW sH (offsetFor true) i j s := by
  refine ⟨?_, ?_, ?_⟩
  · intro r c hr hc
    exact pooling_is_ub kW kH (windowOf input sW sH i j s) r c hr hc
  · exact pooling_attained kW kH (windowOf input sW sH i j s)
      (Nat.mul_pos hkW hkH)
  · have hw : windowOf input2 sW sH i j s = windowOf input sW sH i j s :=
      funext fun r => funext fun c => hagree (i * sW + r) (j * sH + c)
    show (PoolingWithIndex (kW - offsetFor true) (kH - offsetFor true)
        (windowOf input2 sW sH i j s)).2 =
      (PoolingWithIndex (kW - offsetFor true) (kH - offsetFor true)
        (windowOf input sW sH i j s)).2
    rw [hw]

/-- Witness for C7: `cube4b` agrees with `cube4` on slice 0 and differs
elsewhere; the pooled cell (1, 1, 0) is unchanged. -/
theorem floor_window_anchor_and_slice_independence_witness :
    0 < 2 ∧ 0 < 2 ∧
    ((∀ r c, r < 2 → c < 2 →
      cube4.data (1 * 2 + r) (1 * 2 + c) 0 ≤
        outputCell cube4 2 2 2 2 (offsetFor true) 1 1 0) ∧
    (∃ r c, r < 2 ∧ c < 2 ∧
      outputCell cube4 2 2 2 2 (offsetFor true) 1 1 0 =
        cube4.data (1 * 2 + r) (1 * 2 + c) 0) ∧
    outputCell cube4b 2 2 2 2 (offsetFor true) 1 1 0 =
      outputCell cube4 2 2 2 2 (offsetFor true) 1 1 0) :=
  ⟨by decide, by decide,
    floor_window_anchor_and_slice_independence cube4 cube4b 2 2 2 2 1 1 0
      (by decide) (by decide) (fun r c => rfl)⟩

/-- Claim C8: the dimension calculation fails with a ConfigurationError
when the kernel exceeds the input size along an axis under floor mode,
or when the kernel or stride is zero, rather than producing an output
size. -/
theorem configuration_error_raised (inputSize kernel stride : Nat)
    (floorMode : Bool)
    (h : kernel = 0 ∨ stride = 0 ∨ (floorMode = true ∧ inputSize < kernel)) :
    ComputeOutputSize inputSize kernel stride floorMode =
      Except.error PoolError.configurationError := by
  rw [ComputeOutputSize]
  by_cases h1 : kernel = 0 ∨ stride = 0
  · rw [if_pos h1]
  · rw [if_neg h1]
    have h2 : floorMode = true ∧ inputSize < kernel := by tauto
    rw [if_pos h2]

/-- Witness for C8: a 5×5 kernel on a 3-wide input under floor mode is
rejected. -/
theorem configuration_error_raised_witness :
    ((5 : Nat) = 0 ∨ (1 : Nat) = 0 ∨ (true = true ∧ 3 < 5)) ∧
    ComputeOutputSize 3 5 1 true = Except.error PoolError.configurationError :=
  ⟨by decide,
    configuration_error_raised 3 5 1 true (by decide)⟩

/-- Claim C9: every entry written into the index map by the forward
pooling operation is a valid in-range flat index into the input tensor
(strictly less than its total element count) and addresses a coordinate
inside the window that produced it, so the backward scatter-add only
touches in-bounds locations. -/
theorem index_map_entry_in_bounds (input : Cube)
    (kW kH sW sH offset i j s : Nat)
    (hkW : 0 < kW - offset) (hkH : 0 < kH - offset)
    (hrow : i * sW + (kW - offset) ≤ input.nRows)
    (hcol : j * sH + (kH - offset) ≤ input.nCols)
    (hs : s < input.nSlices) :
    indexMapCell input kW kH sW sH offset i j s < input.nElem ∧
    ∃ r c, r < kW - offset ∧ c < kH - offset ∧
      indexMapCell input kW kH sW sH offset i j s =
        (i * sW + r) + input.nRows * (j * sH + c) +
          input.nRows * input.nCols * s := by
  refine ⟨indexMapCell_lt input kW kH sW sH offset i j s hkW hkH hrow hcol hs, ?_⟩
  obtain ⟨r, c, hr, hc, heq, -⟩ :=
    indexMapCell_decomp input kW kH sW sH offset i j s hkW hkH
  exact ⟨r, c, hr, hc, heq⟩

/-- Witness for C9: the 4×4 input, 2×2 kernel, stride 2, output cell
(1, 1, 0). -/
theorem index_map_entry_in_bounds_witness :
    0 < 2 - 0 ∧ 0 < 2 - 0 ∧ 1 * 2 + (2 - 0) ≤ cube4.nRows ∧
      1 * 2 + (2 - 0) ≤ cube4.nCols ∧ 0 < cube4.nSlices ∧
      (indexMapCell cube4 2 2 2 2 0 1 1 0 < cube4.nElem ∧
      ∃ r c, r < 2 - 0 ∧ c < 2 - 0 ∧
        indexMapCell cube4 2 2 2 2 0 1 1 0 =
          (1 * 2 + r) + cube4.nRows * (1 * 2 + c) +
            cube4.nRows * cube4.nCols * 0) :=
  ⟨by decide, by decide, by decide, by decide, by decide,
    index_map_entry_in_bounds cube4 2 2 2 2 0 1 1 0 (by decide) (by decide)
      (by decide) (by decide) (by decide)⟩

/-- Claim C10: the downstream gradient produced by the backward pass is
a function only of the upstream gradient and the stored index map; the
input-activation argument is ignored, so two calls differing only in
that argument produce identical gradients. -/
theorem backward_ignores_input (input1 input2 : Cube) (gy : Nat → Int)
    (poolingIndices : Nat → Nat) (nOutElem : Nat) :
    Backward input1 gy poolingIndices nOutElem =
      Backward input2 gy poolingIndices nOutElem := rfl

end MaxPool
